import Mathlib

set_option maxHeartbeats 1000000

/-!
Verification development for the RAG-databricks-expert pipeline.

The definitions below are a shallow embedding of the repository's core:

* `src/src/ingestion_pipeline/utils.py` (`process_document`,
  `aggregate_and_ingest`),
* `src/src/db/supabase/supabase_client.py` (the metadata-store adapter),
* `src/src/db/qdrant/qdrant_client.py` (the vector-store adapter,
  `hybrid_search`, `delete_by_document_id`, `upsert`),
* `src/src/backend_api/core/generation_logic.py` (`build_prompt`,
  `generate_streaming_answer`),
* `src/src/backend_api/core/utils/openai_provider.py` and
  `openrouter_provider.py` (`stream_openai`, `stream_openrouter`),
* `frontend/app.py` (`stream_api_response`, the client-side consumer).

Modelling conventions: machine-level concerns (network transport, real
embeddings, timestamps) are abstracted: the sha256 hash is a parameter
`hashFn`, the text splitter a parameter `split`, `ingested_at` a boolean
marker.  External-store failures that the Python code observes as raised
exceptions (Qdrant `upsert`) or swallowed errors (Qdrant `delete`, which
catches every exception and returns `False` while the caller ignores the
returned boolean) are injected through a `StoreEnv` record.
-/

namespace RagSpec

/-- One row of the `documents` table (supabase_client.py).  `ingested`
models whether `ingested_at` has ever been written. -/
structure DocRow where
  id : Nat
  source_id : Nat
  url : String
  title : String
  hash : String
  n_chunks : Nat
  ingested : Bool
  deriving DecidableEq, Repr

/-- The metadata store: the `documents` table plus the id generator. -/
structure Meta where
  rows : List DocRow
  nextId : Nat
  deriving DecidableEq, Repr

/-- SupabaseManager.get_document_by_url: first row whose url matches
(the Python query selects `id, hash`; we return the row). -/
def get_document_by_url (m : Meta) (url : String) : Option DocRow :=
  m.rows.find? (fun r => r.url == url)

/-- SupabaseManager.insert_document: inserts a new row carrying the
content hash immediately; `ingested_at` is not set at insertion time
(the log line reads "pending vectorial insertion"). -/
def insert_document (m : Meta) (sid : Nat) (url title doc_hash : String) :
    Nat × Meta :=
  (m.nextId,
    ⟨m.rows ++ [⟨m.nextId, sid, url, title, doc_hash, 0, false⟩], m.nextId + 1⟩)

/-- SupabaseManager.update_document_hash: sets hash, n_chunks and
ingested_at on the row with the given id. -/
def update_document_hash (m : Meta) (docId : Nat) (new_hash : String) (n : Nat) :
    Meta :=
  ⟨m.rows.map (fun r =>
      if r.id = docId then { r with hash := new_hash, n_chunks := n, ingested := true } else r),
    m.nextId⟩

/-- SupabaseManager.ingestion_checkpoint: sets n_chunks and ingested_at
on the row with the given id; the hash is untouched. -/
def ingestion_checkpoint (m : Meta) (docId : Nat) (n : Nat) : Meta :=
  ⟨m.rows.map (fun r =>
      if r.id = docId then { r with n_chunks := n, ingested := true } else r),
    m.nextId⟩

/-- One point of the Qdrant collection; vectors are abstracted away, the
payload fields `document_id`, `text`, `source_url`, `title` are kept. -/
structure ChunkPoint where
  document_id : Nat
  text : String
  source_url : String
  title : String
  deriving DecidableEq, Repr

/-- The vector store content. -/
abbrev Vec := List ChunkPoint

/-- QdrantStorage.delete_by_document_id (the successful path): removes
every point whose payload `document_id` matches. -/
def delete_by_document_id (v : Vec) (docId : Nat) : Vec :=
  v.filter (fun p => p.document_id != docId)

/-- Per-chunk metadata dictionary built in process_document. -/
structure ChunkMeta where
  document_id : Nat
  source_url : String
  title : String
  deriving DecidableEq, Repr

/-- QdrantStorage.upsert (the successful path): one point per chunk
paired positionally with its metadata dictionary (the Python loop
indexes `metadatas[i]` for `i in range(len(chunks))`; callers always
pass lists of equal length). -/
def upsertPoints (v : Vec) (chunks : List String) (metadatas : List ChunkMeta) : Vec :=
  v ++ (List.zip chunks metadatas).map (fun cm =>
    ⟨cm.2.document_id, cm.1, cm.2.source_url, cm.2.title⟩)

/-- The classification performed by process_document.  The Python code
returns None for skip and unchanged; the log lines distinguish the four
outcomes. -/
inductive Classification
  | skip
  | new
  | updated
  | unchanged
  deriving DecidableEq, Repr

/-- The `action` string stored in the result dict: 'new' or 'update'. -/
inductive Action
  | new
  | update
  deriving DecidableEq, Repr

/-- The dictionary returned by process_document for new/updated docs. -/
structure PRes where
  doc_id : Nat
  chunks : List String
  metadatas : List ChunkMeta
  action : Action
  new_hash : String
  n_chunks : Nat
  deriving DecidableEq, Repr

/-- One fetched document: url and page_content from the loader, plus the
already-extracted title (title extraction is orthogonal to the claims). -/
structure FetchedDoc where
  url : String
  content : String
  title : String
  deriving DecidableEq, Repr

/-- Failure injection for the vector store: whether the Qdrant delete
call succeeds (on failure it logs and returns False, the caller ignores
the value) and whether the bulk upsert succeeds (on failure it raises). -/
structure StoreEnv where
  deleteOk : Bool
  upsertOk : Bool
  deriving DecidableEq, Repr

/-- process_document (ingestion_pipeline/utils.py, lines 183-252).
`hashFn` stands for `hashlib.sha256(...).hexdigest()`, `split` for
`text_splitter.split_text`.  Returns the classification, the optional
result dict, and the two stores after the call (the update branch calls
`delete_by_document_id` whose outcome depends on `env.deleteOk`; the
boolean it returns is ignored by the Python caller). -/
def process_document (env : StoreEnv) (hashFn : String → String)
    (split : String → List String) (sid : Nat) (doc : FetchedDoc)
    (meta : Meta) (vec : Vec) :
    Classification × Option PRes × Meta × Vec :=
  if doc.content = "" then (.skip, none, meta, vec)
  else
    let new_hash := hashFn doc.content
    match get_document_by_url meta doc.url with
    | none =>
      let ins := insert_document meta sid doc.url doc.title new_hash
      let chunks := split doc.content
      let metadatas := chunks.map (fun _ => ChunkMeta.mk ins.1 doc.url doc.title)
      (.new, some ⟨ins.1, chunks, metadatas, .new, new_hash, chunks.length⟩, ins.2, vec)
    | some existing =>
      if existing.hash ≠ new_hash then
        let vec1 := if env.deleteOk then delete_by_document_id vec existing.id else vec
        let chunks := split doc.content
        let metadatas := chunks.map (fun _ => ChunkMeta.mk existing.id doc.url doc.title)
        (.updated, some ⟨existing.id, chunks, metadatas, .update, new_hash, chunks.length⟩,
          meta, vec1)
      else (.unchanged, none, meta, vec)

/-- The tuple appended to `indicators` in aggregate_and_ingest. -/
structure Indicator where
  doc_id : Nat
  action : Action
  new_hash : String
  n_chunks : Nat
  deriving DecidableEq, Repr

/-- Observable store-write events of one aggregate_and_ingest call. -/
inductive DbEvent
  | upsertCall (n : Nat)
  | checkpoint (docId n : Nat)
  | updateHash (docId : Nat) (new_hash : String) (n : Nat)
  deriving DecidableEq, Repr

/-- The non-None results of the batch (`for res in results: if res:`). -/
def somes (results : List (Option PRes)) : List PRes :=
  results.filterMap id

/-- all_chunks accumulated across the batch. -/
def all_chunks (results : List (Option PRes)) : List String :=
  (somes results).flatMap PRes.chunks

/-- all_metadatas accumulated across the batch. -/
def all_metadatas (results : List (Option PRes)) : List ChunkMeta :=
  (somes results).flatMap PRes.metadatas

/-- The indicator tuples accumulated across the batch. -/
def indicators (results : List (Option PRes)) : List Indicator :=
  (somes results).map (fun r => ⟨r.doc_id, r.action, r.new_hash, r.n_chunks⟩)

/-- The checkpoint loop at the end of aggregate_and_ingest: `new`
indicators call ingestion_checkpoint, `update` indicators call
update_document_hash.  Also returns the write events in order. -/
def runCheckpoints (inds : List Indicator) (m : Meta) : Meta × List DbEvent :=
  match inds with
  | [] => (m, [])
  | ind :: rest =>
    match ind.action with
    | .new =>
      let r := runCheckpoints rest (ingestion_checkpoint m ind.doc_id ind.n_chunks)
      (r.1, DbEvent.checkpoint ind.doc_id ind.n_chunks :: r.2)
    | .update =>
      let r := runCheckpoints rest (update_document_hash m ind.doc_id ind.new_hash ind.n_chunks)
      (r.1, DbEvent.updateHash ind.doc_id ind.new_hash ind.n_chunks :: r.2)

/-- aggregate_and_ingest (ingestion_pipeline/utils.py, lines 254-282).
If the batch has chunks, one bulk upsert is issued; when it raises
(`env.upsertOk = false`) the exception propagates and the checkpoint
loop never runs (first component `false`).  With zero chunks the upsert
is skipped and the checkpoint loop runs directly. -/
def aggregate_and_ingest (env : StoreEnv) (results : List (Option PRes))
    (meta : Meta) (vec : Vec) : Bool × Meta × Vec × List DbEvent :=
  let chunks := all_chunks results
  if chunks ≠ [] then
    if env.upsertOk then
      let vec1 := upsertPoints vec chunks (all_metadatas results)
      let r := runCheckpoints (indicators results) meta
      (true, r.1, vec1, DbEvent.upsertCall chunks.length :: r.2)
    else (false, meta, vec, [DbEvent.upsertCall chunks.length])
  else
    let r := runCheckpoints (indicators results) meta
    (true, r.1, vec, r.2)

/-- Whether an event is a metadata-store checkpoint write. -/
def DbEvent.isCheckpointWrite : DbEvent → Bool
  | .upsertCall _ => false
  | .checkpoint _ _ => true
  | .updateHash _ _ _ => true

/-- Sequential processing of one batch of documents (the Prefect flow
maps process_document over the batch and collects the results before
calling aggregate_and_ingest). -/
def processAll (env : StoreEnv) (hashFn : String → String)
    (split : String → List String) (sid : Nat) :
    List FetchedDoc → Meta → Vec → List (Classification × Option PRes) × Meta × Vec
  | [], meta, vec => ([], meta, vec)
  | d :: ds, meta, vec =>
    let st := process_document env hashFn split sid d meta vec
    let rest := processAll env hashFn split sid ds st.2.2.1 st.2.2.2
    ((st.1, st.2.1) :: rest.1, rest.2.1, rest.2.2)

/-- Outcome of one full ingestion run over a batch. -/
structure RunOut where
  classifications : List Classification
  ok : Bool
  meta : Meta
  vec : Vec
  events : List DbEvent
  deriving DecidableEq, Repr

/-- One ingestion run: process every document, then aggregate and
ingest the whole batch. -/
def run (env : StoreEnv) (hashFn : String → String)
    (split : String → List String) (sid : Nat)
    (docs : List FetchedDoc) (meta : Meta) (vec : Vec) : RunOut :=
  let p := processAll env hashFn split sid docs meta vec
  let a := aggregate_and_ingest env (p.1.map Prod.snd) p.2.1 p.2.2
  ⟨p.1.map Prod.fst, a.1, a.2.1, a.2.2.1, a.2.2.2⟩

/-- A scored point returned by Qdrant query_points, reduced to the
payload fields the result builder reads (`payload.get` with default
`""`; a missing field is the empty string). -/
structure Candidate where
  text : String
  source_url : String
  deriving DecidableEq, Repr

/-- SearchResult (backend_api/models/api_models.py). -/
structure SearchResult where
  contexts : List String
  sources : List String
  deriving DecidableEq, Repr

/-- Insertion into the Python `sources` set, modelled as a first-seen
deduplicated list (this captures the set's membership semantics: each
url is kept once; the model fixes first-seen order for `list(sources)`). -/
def insertSource (s : List String) (x : String) : List String :=
  if x ∈ s then s else s ++ [x]

/-- One iteration of the result-building loop of hybrid_search: append
the text to contexts and add the source to the set, but only when the
source_url is truthy. -/
def srStep (acc : List String × List String) (p : Candidate) :
    List String × List String :=
  if p.source_url ≠ "" then (acc.1 ++ [p.text], insertSource acc.2 p.source_url)
  else acc

/-- The result-building loop of hybrid_search (qdrant_client.py, lines
165-178): for each point in fused order, a candidate with a falsy
source_url is excluded from both contexts and sources. -/
def buildSearchResult (points : List Candidate) : SearchResult :=
  let acc := points.foldl srStep ([], [])
  ⟨acc.1, acc.2⟩

/-- JSON string escaping as json.dumps performs it for the characters
relevant here (backslash, quote, and the control characters that could
break the single-line property). -/
def escapeJsonChar (c : Char) : String :=
  if c = '\\' then "\\\\"
  else if c = '"' then "\\\""
  else if c = '\n' then "\\n"
  else if c = '\r' then "\\r"
  else if c = '\t' then "\\t"
  else String.singleton c

/-- Escape a character list for a JSON string literal. -/
def escapeChars : List Char → String
  | [] => ""
  | c :: cs => escapeJsonChar c ++ escapeChars cs

/-- Escape a whole string for a JSON string literal. -/
def escapeJson (s : String) : String :=
  escapeChars s.data

/-- A JSON string literal. -/
def jsonStringLit (s : String) : String :=
  "\"" ++ escapeJson s ++ "\""

/-- The comma-joined items of the json array. -/
def jsonArrayItems : List String → String
  | [] => ""
  | [u] => jsonStringLit u
  | u :: rest => jsonStringLit u ++ ", " ++ jsonArrayItems rest

/-- json.dumps of the url array, with the default ", " separator. -/
def jsonArray (urls : List String) : String :=
  "[" ++ jsonArrayItems urls ++ "]"

/-- The serialized metadata object
json.dumps of type "sources" with data list(search_result.sources). -/
def sources_data (urls : List String) : String :=
  "\x7b\"type\": \"sources\", \"data\": " ++ jsonArray urls ++ "\x7d"

/-- One streamed chunk from an OpenAI-protocol provider: the optional
delta content and the optional finish_reason of `chunk.choices[0]`. -/
structure StreamChunk where
  content : Option String
  finish_reason : Option String
  deriving DecidableEq, Repr

/-- The reserved truncation sentinel yielded by both providers. -/
def truncatedSentinel : String := "__truncated__"

/-- The streaming loop shared by stream_openai and stream_openrouter
(openai_provider.py lines 59-87, openrouter_provider.py lines 68-97):
yield each truthy delta text, remember the last truthy finish_reason,
and after the provider stream is exhausted yield the sentinel exactly
when that reason is "length". -/
def streamLoop (last : Option String) : List StreamChunk → List String
  | [] => if last = some "length" then [truncatedSentinel] else []
  | c :: cs =>
    let out := match c.content with
      | some t => if t ≠ "" then [t] else []
      | none => []
    let last1 := match c.finish_reason with
      | some f => if f ≠ "" then some f else last
      | none => last
    out ++ streamLoop last1 cs

/-- stream_openai (backend_api/core/utils/openai_provider.py). -/
def stream_openai (chunks : List StreamChunk) : List String :=
  streamLoop none chunks

/-- stream_openrouter (backend_api/core/utils/openrouter_provider.py):
the identical streaming loop. -/
def stream_openrouter (chunks : List StreamChunk) : List String :=
  streamLoop none chunks

/-- The provider selected by the query request. -/
inductive Provider
  | openai
  | openrouter
  | unsupported
  deriving DecidableEq, Repr

/-- generate_streaming_answer (generation_logic.py, lines 130-165):
yield the single serialized sources line first; only afterwards is the
provider generator created and forwarded chunk by chunk (for an
unsupported provider the function returns right after the metadata
line). -/
def generate_streaming_answer (provider : Provider)
    (providerChunks : List StreamChunk) (search_result : SearchResult) :
    List String :=
  (sources_data search_result.sources ++ "\n") ::
    (match provider with
     | .openai => stream_openai providerChunks
     | .openrouter => stream_openrouter providerChunks
     | .unsupported => [])

/-- Splitting a character stream at its first newline, as
`buffer.split` with maxsplit 1 does: the part before the first newline
and the part after it. -/
def splitFirstNL : List Char → List Char × List Char
  | [] => ([], [])
  | c :: cs =>
    if c = '\n' then ([], cs)
    else
      let r := splitFirstNL cs
      (c :: r.1, r.2)

/-- Outcome of json.loads on the first line combined with the
`type == "sources"` check of the client. -/
inductive FirstLineParse
  | decodeError
  | sourcesMsg (data : List String)
  | otherJson
  deriving Repr

/-- The stream-consuming loop of stream_api_response (frontend/app.py,
lines 541-576), over decoded text chunks modelled as character lists.
Arguments: the parse-outcome function, the chunks still to read, and
the buffer accumulated while no newline has been seen.  Returns the
delivered content (full_response) and the parsed sources list.  On a
decode error the first line and its newline are kept as content and the
remainder is forwarded verbatim. -/
def consumeLoop (parse : List Char → FirstLineParse) :
    List (List Char) → List Char → List Char × List String
  | [], _buf => ([], [])
  | c :: cs, buf =>
    if c = [] then consumeLoop parse cs buf
    else
      let buf1 := buf ++ c
      if '\n' ∈ buf1 then
        let fl := (splitFirstNL buf1).1
        let rem := (splitFirstNL buf1).2
        match parse fl with
        | .decodeError => (fl ++ '\n' :: (rem ++ cs.flatten), [])
        | .sourcesMsg data => (rem ++ cs.flatten, data)
        | .otherJson => (rem ++ cs.flatten, [])
      else consumeLoop parse cs buf1

/-- stream_api_response, reduced to its stream-consuming core. -/
def stream_api_response (parse : List Char → FirstLineParse)
    (chunks : List (List Char)) : List Char × List String :=
  consumeLoop parse chunks []

/-- The per-context lines of build_prompt (generation_logic.py, lines
79-81): zip of the deduplicated sources list with the contexts list,
paired positionally. -/
def contexts_list (sources contexts : List String) : List String :=
  (List.zip sources contexts).map (fun sc =>
    "- URL: " ++ sc.1 ++ "\n Content: " ++ sc.2)

/-- The context block interpolated into the PROMPT template. -/
def context_texts (sources contexts : List String) : String :=
  String.intercalate "\n\n" (contexts_list sources contexts)

/-- build_prompt with the static PROMPT prose abstracted as a template
parameter receiving the query and the joined context block (the literal
prompt text is irrelevant to the claims about pairing and omission). -/
def build_prompt (template : String → String → String)
    (query_text : String) (sr : SearchResult) : String :=
  template query_text (context_texts sr.sources sr.contexts)

/-- Specification helper: the truthy delta texts of a provider stream,
in order (what the streaming loop forwards as content chunks). -/
def collectContent (cs : List StreamChunk) : List String :=
  cs.flatMap (fun c =>
    match c.content with
    | some t => if t ≠ "" then [t] else []
    | none => [])

/-- Specification helper: the last truthy finish_reason of a provider
stream, starting from `last`. -/
def finalReason (last : Option String) : List StreamChunk → Option String
  | [] => last
  | c :: cs =>
    finalReason
      (match c.finish_reason with
       | some f => if f ≠ "" then some f else last
       | none => last) cs

/-- Well-formedness of the metadata store: row ids are pairwise
distinct and below the id generator (both hold for every store the
adapter itself builds). -/
def MetaWf (m : Meta) : Prop :=
  (m.rows.map DocRow.id).Nodup ∧ ∀ r ∈ m.rows, r.id < m.nextId

/-- Specification helper: the row-level effect of one checkpoint
indicator (ingestion_checkpoint for `new`, update_document_hash for
`update`) on a single row. -/
def applyInd (ind : Indicator) (r : DocRow) : DocRow :=
  match ind.action with
  | .new =>
    if r.id = ind.doc_id then { r with n_chunks := ind.n_chunks, ingested := true } else r
  | .update =>
    if r.id = ind.doc_id then
      { r with hash := ind.new_hash, n_chunks := ind.n_chunks, ingested := true }
    else r

/-- Specification helper: the row-level effect of a whole checkpoint
loop on a single row. -/
def applyInds (inds : List Indicator) (r : DocRow) : DocRow :=
  inds.foldl (fun r ind => applyInd ind r) r

/-! General helper lemmas about the store primitives. -/

theorem find?_append_some {p : DocRow → Bool} {l1 : List DocRow} {a : DocRow}
    (l2 : List DocRow) (h : l1.find? p = some a) : (l1 ++ l2).find? p = some a := by
  rw [List.find?_append, h]
  rfl

theorem zip_self_map {α β : Type} (l : List α) (f : α → β) :
    List.zip l (l.map f) = l.map (fun a => (a, f a)) := by
  induction l with
  | nil => rfl
  | cons x xs ih => simp [ih]

/-! Claim theorems. -/

/-- C1: if the single bulk upsert of an ingestion batch raises, the
checkpoint loop never runs: no ingestion_checkpoint or
update_document_hash write is performed for any document of the batch,
and the metadata store is left untouched; conversely, a checkpoint
write event can only occur in a call whose upsert succeeded or whose
batch produced zero chunks (the skipped-upsert case). -/
theorem checkpoint_only_after_successful_upsert (env : StoreEnv)
    (results : List (Option PRes)) (meta : Meta) (vec : Vec) :
    (env.upsertOk = false → all_chunks results ≠ [] →
      aggregate_and_ingest env results meta vec =
        (false, meta, vec, [DbEvent.upsertCall (all_chunks results).length])) ∧
    (∀ e ∈ (aggregate_and_ingest env results meta vec).2.2.2,
      e.isCheckpointWrite = true → all_chunks results = [] ∨ env.upsertOk = true) := by
  constructor
  · intro hfail hne
    simp [aggregate_and_ingest, hne, hfail]
  · intro e he hck
    by_cases hch : all_chunks results = []
    · exact Or.inl hch
    · right
      by_cases hup : env.upsertOk = true
      · exact hup
      · exfalso
        have hfalse : env.upsertOk = false := by
          simpa using hup
        simp only [aggregate_and_ingest, if_pos hch, if_neg hch, hfalse] at he
        simp at he
        rw [he] at hck
        simp [DbEvent.isCheckpointWrite] at hck

/-- Witness for C1 at a concrete one-document batch with a failing
upsert. -/
theorem checkpoint_only_after_successful_upsert_witness :
    aggregate_and_ingest ⟨true, false⟩
        [some ⟨0, ["c"], [⟨0, "u", "t"⟩], Action.new, "h", 1⟩] ⟨[], 0⟩ [] =
      (false, ⟨[], 0⟩, [], [DbEvent.upsertCall 1]) := by
  exact (checkpoint_only_after_successful_upsert ⟨true, false⟩
      [some ⟨0, ["c"], [⟨0, "u", "t"⟩], Action.new, "h", 1⟩] ⟨[], 0⟩ []).1 rfl (by decide)

/-- C4: classification of one fetched document.  Empty content is
skipped with no writes to either store; an unknown url is classified
new and a row is inserted (carrying the content hash); a known url with
a differing stored hash is classified updated; a known url with an
equal hash is classified unchanged, terminally, with no writes to
either store. -/
theorem change_detector_classification (env : StoreEnv) (hashFn : String → String)
    (split : String → List String) (sid : Nat) (doc : FetchedDoc)
    (meta : Meta) (vec : Vec) :
    (doc.content = "" →
      process_document env hashFn split sid doc meta vec = (.skip, none, meta, vec)) ∧
    (doc.content ≠ "" → get_document_by_url meta doc.url = none →
      (process_document env hashFn split sid doc meta vec).1 = .new ∧
      (process_document env hashFn split sid doc meta vec).2.2.1 =
        ⟨meta.rows ++ [⟨meta.nextId, sid, doc.url, doc.title, hashFn doc.content, 0, false⟩],
          meta.nextId + 1⟩) ∧
    (∀ ex, doc.content ≠ "" → get_document_by_url meta doc.url = some ex →
      ex.hash ≠ hashFn doc.content →
      (process_document env hashFn split sid doc meta vec).1 = .updated) ∧
    (∀ ex, doc.content ≠ "" → get_document_by_url meta doc.url = some ex →
      ex.hash = hashFn doc.content →
      process_document env hashFn split sid doc meta vec = (.unchanged, none, meta, vec)) := by
  refine ⟨?_, ?_, ?_, ?_⟩
  · intro h
    simp [process_document, h]
  · intro hc hfind
    simp [process_document, hc, hfind, insert_document]
  · intro ex hc hfind hne
    simp [process_document, hc, hfind, hne]
  · intro ex hc hfind heq
    simp [process_document, hc, hfind, heq]

/-- C2 counterexample: a document first seen by a run whose bulk upsert
fails is classified unchanged by the next run over the identical
content, although no chunk of it ever reached the vector store:
insert_document stores the content hash at row-creation time, before
the upsert. -/
theorem failed_new_ingestion_reclassified_unchanged :
    let p := process_document ⟨true, false⟩ id (fun s => [s]) 0 ⟨"u", "c", "t"⟩ ⟨[], 0⟩ []
    let a := aggregate_and_ingest ⟨true, false⟩ [p.2.1] p.2.2.1 p.2.2.2
    p.1 = Classification.new ∧ a.1 = false ∧ a.2.2.1 = [] ∧
      (process_document ⟨true, false⟩ id (fun s => [s]) 0 ⟨"u", "c", "t"⟩ a.2.1
          a.2.2.1).1 = Classification.unchanged := by
  decide

/-- C2 amended: the safe-retry property holds for updated documents
only.  For a document classified updated, process_document leaves the
metadata row untouched (the hash is rewritten only by the checkpoint
that follows a successful upsert), so a rerun before that checkpoint
classifies the same content updated again; for a document classified
new, the freshly-inserted row already carries the content hash, so a
rerun before any upsert already classifies the same content
unchanged. -/
theorem updated_doc_reclassified_after_failed_upsert (env env2 : StoreEnv)
    (hashFn : String → String) (split : String → List String) (sid : Nat)
    (doc : FetchedDoc) (meta : Meta) (vec vec2 : Vec) (hc : doc.content ≠ "") :
    (∀ ex, get_document_by_url meta doc.url = some ex →
      ex.hash ≠ hashFn doc.content →
      (process_document env hashFn split sid doc meta vec).2.2.1 = meta ∧
      (process_document env2 hashFn split sid doc meta vec2).1 = Classification.updated) ∧
    (get_document_by_url meta doc.url = none →
      (process_document env2 hashFn split sid doc
          (process_document env hashFn split sid doc meta vec).2.2.1 vec2).1 =
        Classification.unchanged) := by
  constructor
  · intro ex hfind hne
    constructor
    · simp [process_document, hc, hfind, hne]
    · simp [process_document, hc, hfind, hne]
  · intro hfind
    have hmeta : (process_document env hashFn split sid doc meta vec).2.2.1 =
        ⟨meta.rows ++ [⟨meta.nextId, sid, doc.url, doc.title, hashFn doc.content, 0, false⟩],
          meta.nextId + 1⟩ := by
      simp [process_document, hc, hfind, insert_document]
    rw [hmeta]
    have hfind2 : get_document_by_url
        ⟨meta.rows ++ [⟨meta.nextId, sid, doc.url, doc.title, hashFn doc.content, 0, false⟩],
          meta.nextId + 1⟩ doc.url =
        some ⟨meta.nextId, sid, doc.url, doc.title, hashFn doc.content, 0, false⟩ := by
      unfold get_document_by_url at hfind ⊢
      rw [List.find?_append, hfind]
      simp
    simp [process_document, hc, hfind2]

/-- Witness for the amended C2 at a concrete updated document. -/
theorem updated_doc_reclassified_after_failed_upsert_witness :
    (process_document ⟨true, true⟩ id (fun s => [s]) 0 ⟨"u", "c", "t"⟩
        ⟨[⟨0, 0, "u", "t", "old", 1, true⟩], 1⟩ []).2.2.1 =
      ⟨[⟨0, 0, "u", "t", "old", 1, true⟩], 1⟩ ∧
    (process_document ⟨false, false⟩ id (fun s => [s]) 0 ⟨"u", "c", "t"⟩
        ⟨[⟨0, 0, "u", "t", "old", 1, true⟩], 1⟩ []).1 = Classification.updated := by
  exact (updated_doc_reclassified_after_failed_upsert ⟨true, true⟩ ⟨false, false⟩ id
      (fun s => [s]) 0 ⟨"u", "c", "t"⟩ ⟨[⟨0, 0, "u", "t", "old", 1, true⟩], 1⟩ [] []
      (by decide)).1 ⟨0, 0, "u", "t", "old", 1, true⟩ (by decide) (by decide)

/-- C3 counterexample: the Qdrant delete call swallows its own errors
and returns False, and process_document ignores that boolean, so when
the delete fails the batch upsert still inserts the replacement chunks
and the vector store ends up holding an old chunk and a new chunk for
the same document_id at once. -/
theorem failed_delete_leaves_mixed_chunks :
    let env : StoreEnv := ⟨false, true⟩
    let meta : Meta := ⟨[⟨0, 0, "u", "t", "h1", 1, true⟩], 1⟩
    let p := process_document env id (fun s => [s]) 0 ⟨"u", "c2", "t"⟩ meta
      [⟨0, "old", "u", "t"⟩]
    let a := aggregate_and_ingest env [p.2.1] p.2.2.1 p.2.2.2
    p.1 = Classification.updated ∧
      ChunkPoint.mk 0 "old" "u" "t" ∈ a.2.2.1 ∧
      ChunkPoint.mk 0 "c2" "u" "t" ∈ a.2.2.1 := by
  decide

/-- C3 amended: when the delete call succeeds, all prior chunks of the
updated document are removed before any replacement chunk is inserted:
right after process_document the store holds zero chunks for that
document_id (the permitted empty window), and after the batch upsert it
holds exactly the chunks of the new content, so a mixed state never
occurs. -/
theorem delete_before_insert_no_mix (env : StoreEnv) (hashFn : String → String)
    (split : String → List String) (sid : Nat) (doc : FetchedDoc)
    (meta : Meta) (vec : Vec) (ex : DocRow)
    (hdel : env.deleteOk = true) (hup : env.upsertOk = true)
    (hc : doc.content ≠ "")
    (hfind : get_document_by_url meta doc.url = some ex)
    (hne : ex.hash ≠ hashFn doc.content) :
    ((process_document env hashFn split sid doc meta vec).2.2.2.filter
        (fun q => q.document_id == ex.id)) = [] ∧
    ((aggregate_and_ingest env
          [(process_document env hashFn split sid doc meta vec).2.1]
          (process_document env hashFn split sid doc meta vec).2.2.1
          (process_document env hashFn split sid doc meta vec).2.2.2).2.2.1.filter
        (fun q => q.document_id == ex.id)) =
      (split doc.content).map (fun c => ChunkPoint.mk ex.id c doc.url doc.title) := by
  have hp : process_document env hashFn split sid doc meta vec =
      (Classification.updated,
        some ⟨ex.id, split doc.content,
          (split doc.content).map (fun _ => ChunkMeta.mk ex.id doc.url doc.title),
          Action.update, hashFn doc.content, (split doc.content).length⟩,
        meta, delete_by_document_id vec ex.id) := by
    simp [process_document, hc, hfind, hne, hdel]
  rw [hp]
  have hdelFilter : (delete_by_document_id vec ex.id).filter
      (fun q => q.document_id == ex.id) = [] := by
    simp only [delete_by_document_id, List.filter_filter]
    apply List.filter_eq_nil_iff.mpr
    intro a _
    simp only [Bool.and_eq_true, beq_iff_eq, bne_iff_ne, ne_eq]
    rintro ⟨h1, h2⟩
    exact h2 h1
  refine ⟨hdelFilter, ?_⟩
  by_cases hsp : split doc.content = []
  · simp [aggregate_and_ingest, all_chunks, somes, hsp, hdelFilter]
  · have hchunks : all_chunks [some ⟨ex.id, split doc.content,
        (split doc.content).map (fun _ => ChunkMeta.mk ex.id doc.url doc.title),
        Action.update, hashFn doc.content, (split doc.content).length⟩] =
        split doc.content := by
      simp [all_chunks, somes]
    have hmetas : all_metadatas [some ⟨ex.id, split doc.content,
        (split doc.content).map (fun _ => ChunkMeta.mk ex.id doc.url doc.title),
        Action.update, hashFn doc.content, (split doc.content).length⟩] =
        (split doc.content).map (fun _ => ChunkMeta.mk ex.id doc.url doc.title) := by
      simp [all_metadatas, somes]
    simp only [aggregate_and_ingest, hchunks, hmetas, if_pos hsp, hup, if_true, ne_eq,
      hsp, not_false_eq_true]
    simp only [upsertPoints, List.filter_append, hdelFilter, List.nil_append,
      zip_self_map, List.map_map]
    apply List.filter_eq_self.mpr
    intro a ha
    simp only [List.mem_map] at ha
    obtain ⟨c, _, rfl⟩ := ha
    simp

/-- Witness for the amended C3 at a concrete updated document. -/
theorem delete_before_insert_no_mix_witness :
    ((process_document ⟨true, true⟩ id (fun s => [s]) 0 ⟨"u", "c2", "t"⟩
        ⟨[⟨0, 0, "u", "t", "h1", 1, true⟩], 1⟩ [⟨0, "old", "u", "t"⟩]).2.2.2.filter
        (fun q => q.document_id == 0)) = [] ∧
    ((aggregate_and_ingest ⟨true, true⟩
          [(process_document ⟨true, true⟩ id (fun s => [s]) 0 ⟨"u", "c2", "t"⟩
              ⟨[⟨0, 0, "u", "t", "h1", 1, true⟩], 1⟩ [⟨0, "old", "u", "t"⟩]).2.1]
          (process_document ⟨true, true⟩ id (fun s => [s]) 0 ⟨"u", "c2", "t"⟩
              ⟨[⟨0, 0, "u", "t", "h1", 1, true⟩], 1⟩ [⟨0, "old", "u", "t"⟩]).2.2.1
          (process_document ⟨true, true⟩ id (fun s => [s]) 0 ⟨"u", "c2", "t"⟩
              ⟨[⟨0, 0, "u", "t", "h1", 1, true⟩], 1⟩ [⟨0, "old", "u", "t"⟩]).2.2.2).2.2.1.filter
        (fun q => q.document_id == 0)) =
      ["c2"].map (fun c => ChunkPoint.mk 0 c "u" "t") := by
  exact delete_before_insert_no_mix ⟨true, true⟩ id (fun s => [s]) 0 ⟨"u", "c2", "t"⟩
    ⟨[⟨0, 0, "u", "t", "h1", 1, true⟩], 1⟩ [⟨0, "old", "u", "t"⟩] ⟨0, 0, "u", "t", "h1", 1, true⟩
    rfl rfl (by decide) (by decide) (by decide)

/-- Witness for C4 at a concrete unchanged document. -/
theorem change_detector_classification_witness :
    process_document ⟨true, true⟩ id (fun s => [s]) 0 ⟨"u", "c", "t"⟩
        ⟨[⟨0, 0, "u", "t", "c", 1, true⟩], 1⟩ [] =
      (Classification.unchanged, none, ⟨[⟨0, 0, "u", "t", "c", 1, true⟩], 1⟩, []) := by
  exact (change_detector_classification ⟨true, true⟩ id (fun s => [s]) 0 ⟨"u", "c", "t"⟩
      ⟨[⟨0, 0, "u", "t", "c", 1, true⟩], 1⟩ []).2.2.2 ⟨0, 0, "u", "t", "c", 1, true⟩
      (by decide) (by decide) (by decide)

/-! Lemmas about the hybrid_search result builder. -/

theorem insertSource_nodup {s : List String} (x : String) (h : s.Nodup) :
    (insertSource s x).Nodup := by
  unfold insertSource
  split
  · exact h
  · rename_i hx
    simp [List.nodup_append, h, hx]

theorem insertSource_mem {s : List String} {x u : String} :
    u ∈ insertSource s x ↔ u ∈ s ∨ u = x := by
  unfold insertSource
  split
  · rename_i hx
    constructor
    · exact Or.inl
    · rintro (h | rfl)
      · exact h
      · exact hx
  · simp

theorem srFold_fst (points : List Candidate) (acc : List String × List String) :
    (points.foldl srStep acc).1 =
      acc.1 ++ (points.filter (fun p => p.source_url != "")).map Candidate.text := by
  induction points generalizing acc with
  | nil => simp
  | cons p ps ih =>
    by_cases hsrc : p.source_url = ""
    · simp [srStep, hsrc, ih]
    · simp [srStep, hsrc, ih, List.append_assoc]

theorem srFold_snd_mem (points : List Candidate) (acc : List String × List String)
    (u : String) :
    u ∈ (points.foldl srStep acc).2 ↔
      u ∈ acc.2 ∨ ∃ p ∈ points, p.source_url = u ∧ u ≠ "" := by
  induction points generalizing acc with
  | nil => simp
  | cons p ps ih =>
    rw [List.foldl_cons]
    by_cases hsrc : p.source_url = ""
    · have hstep : srStep acc p = acc := by simp [srStep, hsrc]
      rw [hstep, ih]
      constructor
      · rintro (h | ⟨q, hq, hqu, hne⟩)
        · exact Or.inl h
        · exact Or.inr ⟨q, List.mem_cons_of_mem _ hq, hqu, hne⟩
      · rintro (h | ⟨q, hq, hqu, hne⟩)
        · exact Or.inl h
        · rcases List.mem_cons.mp hq with rfl | hq2
          · exact absurd (hsrc ▸ hqu) (Ne.symm hne)
          · exact Or.inr ⟨q, hq2, hqu, hne⟩
    · have hstep : srStep acc p = (acc.1 ++ [p.text], insertSource acc.2 p.source_url) := by
        simp [srStep, hsrc]
      rw [hstep, ih]
      simp only [insertSource_mem]
      constructor
      · rintro ((h | rfl) | ⟨q, hq, hqu, hne⟩)
        · exact Or.inl h
        · exact Or.inr ⟨p, List.mem_cons_self p ps, rfl, hsrc⟩
        · exact Or.inr ⟨q, List.mem_cons_of_mem _ hq, hqu, hne⟩
      · rintro (h | ⟨q, hq, hqu, hne⟩)
        · exact Or.inl (Or.inl h)
        · rcases List.mem_cons.mp hq with rfl | hq2
          · exact Or.inl (Or.inr hqu.symm)
          · exact Or.inr ⟨q, hq2, hqu, hne⟩

theorem srFold_snd_nodup (points : List Candidate) (acc : List String × List String)
    (h : acc.2.Nodup) : (points.foldl srStep acc).2.Nodup := by
  induction points generalizing acc with
  | nil => exact h
  | cons p ps ih =>
    rw [List.foldl_cons]
    unfold srStep
    split
    · exact ih _ (insertSource_nodup _ h)
    · exact ih _ h

/-- C6: the sources list of a SearchResult built from a candidate set
is duplicate-free, contains a url exactly when some candidate carries it
as a nonempty source_url (so a url shared by several candidates appears
once), and is produced by a deterministic function of the candidate list
(first-seen insertion order in this model of the Python set); a
candidate with no source url is excluded from contexts and sources
alike. -/
theorem search_result_sources_dedup (points : List Candidate) :
    ((buildSearchResult points).sources).Nodup ∧
    (∀ u, u ∈ (buildSearchResult points).sources ↔
      ∃ p ∈ points, p.source_url = u ∧ u ≠ "") ∧
    (buildSearchResult points).contexts =
      (points.filter (fun p => p.source_url != "")).map Candidate.text := by
  refine ⟨srFold_snd_nodup points ([], []) (by simp), ?_, srFold_fst points ([], [])⟩
  intro u
  have h := srFold_snd_mem points ([], []) u
  simpa using h

/-! Lemmas about the serialized metadata line. -/

theorem escapeJsonChar_no_newline (c : Char) : '\n' ∉ (escapeJsonChar c).data := by
  unfold escapeJsonChar
  split
  · decide
  · split
    · decide
    · split
      · decide
      · split
        · decide
        · split
          · decide
          · rename_i h1 h2 h3 h4 h5
            intro hmem
            have : '\n' = c := by simpa [String.singleton] using hmem
            exact h3 this.symm

theorem escapeChars_no_newline (l : List Char) : '\n' ∉ (escapeChars l).data := by
  induction l with
  | nil => simp [escapeChars]
  | cons c cs ih =>
    simp only [escapeChars, String.data_append, List.mem_append]
    rintro (h | h)
    · exact escapeJsonChar_no_newline c h
    · exact ih h

theorem jsonStringLit_no_newline (s : String) : '\n' ∉ (jsonStringLit s).data := by
  simp only [jsonStringLit, escapeJson, String.data_append, List.mem_append]
  rintro ((h | h) | h)
  · simp at h
  · exact escapeChars_no_newline s.data h
  · simp at h

theorem jsonArrayItems_no_newline (l : List String) : '\n' ∉ (jsonArrayItems l).data := by
  induction l with
  | nil => simp [jsonArrayItems]
  | cons u t ih =>
    cases t with
    | nil => exact jsonStringLit_no_newline u
    | cons v rest =>
      simp only [jsonArrayItems, String.data_append, List.mem_append]
      rintro ((h | h) | h)
      · exact jsonStringLit_no_newline u h
      · simp at h
      · exact ih h

theorem sources_data_no_newline (urls : List String) :
    '\n' ∉ (sources_data urls).data := by
  simp only [sources_data, jsonArray, String.data_append, List.mem_append]
  rintro ((h | ((h | h) | h)) | h)
  · simp at h
  · simp at h
  · exact jsonArrayItems_no_newline urls h
  · simp at h
  · simp at h

/-- C7: the first item of the multiplexed stream is the serialized
sources object terminated by a newline; that chunk contains exactly one
newline (so it is a single newline-terminated line, whatever the urls
contain, thanks to JSON escaping); it does not depend on the provider
stream (it is yielded before the provider generator is created); and
everything after it is exactly the selected provider's token stream —
in particular no second metadata line is ever emitted (an unsupported
provider ends the stream right after the metadata line). -/
theorem streaming_metadata_line_first (provider : Provider)
    (providerChunks : List StreamChunk) (sr : SearchResult) :
    ((generate_streaming_answer provider providerChunks sr).head? =
      some (sources_data sr.sources ++ "\n")) ∧
    ((sources_data sr.sources ++ "\n").data.count '\n' = 1) ∧
    ((generate_streaming_answer provider providerChunks sr).tail =
      match provider with
      | .openai => stream_openai providerChunks
      | .openrouter => stream_openrouter providerChunks
      | .unsupported => []) := by
  refine ⟨rfl, ?_, rfl⟩
  rw [String.data_append, List.count_append]
  have h0 : (sources_data sr.sources).data.count '\n' = 0 :=
    List.count_eq_zero.mpr (sources_data_no_newline sr.sources)
  rw [h0]
  decide

/-! Lemmas about the provider streaming loop. -/

theorem streamLoop_spec (cs : List StreamChunk) : ∀ last,
    streamLoop last cs = collectContent cs ++
      (if finalReason last cs = some "length" then [truncatedSentinel] else []) := by
  induction cs with
  | nil =>
    intro last
    simp [streamLoop, collectContent, finalReason]
  | cons c cs ih =>
    intro last
    simp only [streamLoop, collectContent, List.flatMap_cons, finalReason]
    rw [ih]
    simp [collectContent, List.append_assoc]

/-- C8: when the provider's last reported finish reason is "length",
both streaming generators emit exactly the content chunks followed by
the sentinel literal as the final chunk, with no content chunk after
it; when the finish reason is anything else, the output is exactly the
content chunks, and (as long as no provider content chunk equals the
reserved literal) the sentinel never appears in the stream. -/
theorem truncation_sentinel_final (chunks : List StreamChunk) :
    (finalReason none chunks = some "length" →
      stream_openai chunks = collectContent chunks ++ [truncatedSentinel] ∧
      stream_openrouter chunks = collectContent chunks ++ [truncatedSentinel] ∧
      (stream_openai chunks).getLast? = some truncatedSentinel) ∧
    (finalReason none chunks ≠ some "length" →
      stream_openai chunks = collectContent chunks ∧
      stream_openrouter chunks = collectContent chunks) ∧
    (truncatedSentinel ∉ collectContent chunks →
      finalReason none chunks ≠ some "length" →
      truncatedSentinel ∉ stream_openai chunks ∧
      truncatedSentinel ∉ stream_openrouter chunks) := by
  have hs : stream_openai chunks = collectContent chunks ++
      (if finalReason none chunks = some "length" then [truncatedSentinel] else []) :=
    streamLoop_spec chunks none
  have hr : stream_openrouter chunks = collectContent chunks ++
      (if finalReason none chunks = some "length" then [truncatedSentinel] else []) :=
    streamLoop_spec chunks none
  refine ⟨?_, ?_, ?_⟩
  · intro hl
    rw [hs, hr, if_pos hl]
    exact ⟨rfl, rfl, List.getLast?_concat _⟩
  · intro hl
    rw [hs, hr, if_neg hl]
    simp
  · intro hmem hl
    rw [hs, hr, if_neg hl]
    simp [hmem]

/-- Witness for C8 at a concrete length-limited stream. -/
theorem truncation_sentinel_final_witness :
    stream_openai [⟨some "hi", none⟩, ⟨none, some "length"⟩] =
      collectContent [⟨some "hi", none⟩, ⟨none, some "length"⟩] ++ [truncatedSentinel] :=
  ((truncation_sentinel_final [⟨some "hi", none⟩, ⟨none, some "length"⟩]).1 (by decide)).1

/-! Lemmas about the client-side stream consumer. -/

theorem splitFirstNL_reconstruct {l : List Char} (h : '\n' ∈ l) :
    (splitFirstNL l).1 ++ '\n' :: (splitFirstNL l).2 = l := by
  induction l with
  | nil => cases h
  | cons c cs ih =>
    by_cases hc : c = '\n'
    · subst hc
      simp [splitFirstNL]
    · have h2 : '\n' ∈ cs := by
        rcases List.mem_cons.mp h with h1 | h1
        · exact absurd h1.symm hc
        · exact h1
      simp [splitFirstNL, hc, ih h2]

theorem splitFirstNL_append {l : List Char} (t : List Char) (h : '\n' ∈ l) :
    splitFirstNL (l ++ t) = ((splitFirstNL l).1, (splitFirstNL l).2 ++ t) := by
  induction l with
  | nil => cases h
  | cons c cs ih =>
    by_cases hc : c = '\n'
    · subst hc
      simp [splitFirstNL]
    · have h2 : '\n' ∈ cs := by
        rcases List.mem_cons.mp h with h1 | h1
        · exact absurd h1.symm hc
        · exact h1
      simp [splitFirstNL, hc, ih h2]

theorem consumeLoop_decode_error_preserves (parse : List Char → FirstLineParse)
    (chunks : List (List Char)) : ∀ (buf : List Char),
    '\n' ∉ buf →
    '\n' ∈ buf ++ chunks.flatten →
    parse (splitFirstNL (buf ++ chunks.flatten)).1 = FirstLineParse.decodeError →
    (consumeLoop parse chunks buf).1 = buf ++ chunks.flatten := by
  induction chunks with
  | nil =>
    intro buf hb hn _
    simp only [List.flatten_nil, List.append_nil] at hn
    exact absurd hn hb
  | cons c cs ih =>
    intro buf hb hn hp
    have harr : buf ++ (c :: cs).flatten = (buf ++ c) ++ cs.flatten := by
      simp [List.append_assoc]
    by_cases hce : c = []
    · subst hce
      rw [consumeLoop, if_pos rfl]
      have hn2 : '\n' ∈ buf ++ cs.flatten := by simpa using hn
      have hp2 : parse (splitFirstNL (buf ++ cs.flatten)).1 = FirstLineParse.decodeError := by
        simpa using hp
      rw [ih buf hb hn2 hp2]
      simp
    · rw [consumeLoop, if_neg hce]
      by_cases hbn : '\n' ∈ buf ++ c
      · rw [if_pos hbn]
        rw [harr] at hp
        rw [splitFirstNL_append cs.flatten hbn] at hp
        simp only [hp]
        rw [harr]
        conv_rhs => rw [← splitFirstNL_reconstruct hbn]
        simp [List.append_assoc]
      · rw [if_neg hbn]
        rw [harr] at hn hp
        rw [ih (buf ++ c) hbn hn hp]
        exact harr.symm

theorem consumeLoop_other_json_discards (parse : List Char → FirstLineParse)
    (chunks : List (List Char)) : ∀ (buf : List Char),
    '\n' ∉ buf →
    '\n' ∈ buf ++ chunks.flatten →
    parse (splitFirstNL (buf ++ chunks.flatten)).1 = FirstLineParse.otherJson →
    (consumeLoop parse chunks buf).1 = (splitFirstNL (buf ++ chunks.flatten)).2 := by
  induction chunks with
  | nil =>
    intro buf hb hn _
    simp only [List.flatten_nil, List.append_nil] at hn
    exact absurd hn hb
  | cons c cs ih =>
    intro buf hb hn hp
    have harr : buf ++ (c :: cs).flatten = (buf ++ c) ++ cs.flatten := by
      simp [List.append_assoc]
    by_cases hce : c = []
    · subst hce
      rw [consumeLoop, if_pos rfl]
      have hn2 : '\n' ∈ buf ++ cs.flatten := by simpa using hn
      have hp2 : parse (splitFirstNL (buf ++ cs.flatten)).1 = FirstLineParse.otherJson := by
        simpa using hp
      rw [ih buf hb hn2 hp2]
      simp
    · rw [consumeLoop, if_neg hce]
      by_cases hbn : '\n' ∈ buf ++ c
      · rw [if_pos hbn]
        rw [harr] at hp
        rw [splitFirstNL_append cs.flatten hbn] at hp
        simp only [hp]
        rw [harr, splitFirstNL_append cs.flatten hbn]
      · rw [if_neg hbn]
        rw [harr] at hn hp ⊢
        exact ih (buf ++ c) hbn hn hp

/-- C9 counterexample: a first line that is valid JSON but not the
sources metadata object — here an object whose type field is "note" —
fails to parse as the sources message, yet the consumer silently
discards it: json.loads succeeds, the type check fails, and neither
branch appends the first line to full_response.  The parse function
below returns on this concrete first line exactly what json.loads plus
the type check return on it.  The delivered content is only the
remainder after the newline, so the prefix is lost, refuting
exactly-once delivery of the unparsed prefix. -/
theorem valid_json_non_sources_line_discarded :
    let chunks : List (List Char) := ["\x7b\"type\": \"note\"\x7d\nMore text".data]
    let parse : List Char → FirstLineParse := fun l =>
      if l = "\x7b\"type\": \"note\"\x7d".data then FirstLineParse.otherJson
      else FirstLineParse.decodeError
    (stream_api_response parse chunks).1 = "More text".data ∧
    (stream_api_response parse chunks).1 ≠ chunks.flatten ∧
    (stream_api_response parse chunks).2 = [] := by
  decide

/-- C9 amended: the exactly-once, no-byte-lost delivery holds when the
first newline-terminated prefix fails JSON decoding
(json.JSONDecodeError): then the consumer delivers the whole stream
byte-for-byte, the prefix and its newline appearing exactly once.
When the prefix instead decodes as a JSON object that is not the
sources message, the consumer silently discards the prefix and its
newline and delivers only the remainder of the stream, which it still
forwards byte-accurately. -/
theorem first_line_parse_outcomes (parse : List Char → FirstLineParse)
    (chunks : List (List Char)) (hnl : '\n' ∈ chunks.flatten) :
    (parse (splitFirstNL chunks.flatten).1 = FirstLineParse.decodeError →
      (stream_api_response parse chunks).1 = chunks.flatten) ∧
    (parse (splitFirstNL chunks.flatten).1 = FirstLineParse.otherJson →
      (stream_api_response parse chunks).1 = (splitFirstNL chunks.flatten).2) := by
  constructor
  · intro hfail
    have h := consumeLoop_decode_error_preserves parse chunks [] (by simp)
      (by simpa using hnl) (by simpa using hfail)
    simpa [stream_api_response] using h
  · intro hother
    have h := consumeLoop_other_json_discards parse chunks [] (by simp)
      (by simpa using hnl) (by simpa using hother)
    simpa [stream_api_response] using h

/-- Witness for the amended C9 on the spec's own example stream. -/
theorem first_line_parse_outcomes_witness :
    (stream_api_response (fun _ => FirstLineParse.decodeError)
        ["no metadata here\nMore ".data, "text".data]).1 =
      (["no metadata here\nMore ".data, "text".data] : List (List Char)).flatten :=
  (first_line_parse_outcomes (fun _ => FirstLineParse.decodeError)
      ["no metadata here\nMore ".data, "text".data] (by decide)).1 rfl

/-- C10: the prompt builder pairs the deduplicated sources list with
the contexts list positionally via zip: the built list has
min(|sources|, |contexts|) entries — when there are more contexts than
distinct sources the excess contexts are omitted from the prompt — and
the i-th entry pairs the i-th source url with the i-th context, which
need not be that context's own source. -/
theorem prompt_zip_pairing (sources contexts : List String) :
    (contexts_list sources contexts).length = min sources.length contexts.length ∧
    (∀ i (h1 : i < sources.length) (h2 : i < contexts.length),
      (contexts_list sources contexts)[i]? =
        some ("- URL: " ++ sources[i] ++ "\n Content: " ++ contexts[i])) := by
  constructor
  · simp [contexts_list]
  · intro i h1 h2
    have hz : (List.zip sources contexts)[i]? = some (sources[i], contexts[i]) := by
      simp [List.getElem?_zip_eq_some, h1, h2]
    simp [contexts_list, hz]

/-- Witness for C10 with two contexts sharing one source. -/
theorem prompt_zip_pairing_witness :
    (contexts_list ["s1"] ["c1", "c2"]).length = min 1 2 ∧
    (contexts_list ["s1"] ["c1", "c2"])[0]? =
      some ("- URL: s1\n Content: c1") := by
  refine ⟨(prompt_zip_pairing ["s1"] ["c1", "c2"]).1, ?_⟩
  have h := (prompt_zip_pairing ["s1"] ["c1", "c2"]).2 0 (by decide) (by decide)
  simpa using h

/-! Lemmas for the idempotent-re-ingestion claim. -/

theorem find?_map_url_pres (g : DocRow → DocRow) (hg : ∀ r, (g r).url = r.url)
    (rows : List DocRow) (url : String) :
    (rows.map g).find? (fun r => r.url == url) =
      (rows.find? (fun r => r.url == url)).map g := by
  induction rows with
  | nil => rfl
  | cons r rs ih =>
    simp only [List.map_cons, List.find?_cons, hg r]
    cases hh : (r.url == url)
    · simp [hh, ih]
    · simp [hh]

theorem applyInd_url (ind : Indicator) (r : DocRow) : (applyInd ind r).url = r.url := by
  unfold applyInd
  cases ind.action <;> dsimp only <;> split <;> rfl

theorem applyInd_id (ind : Indicator) (r : DocRow) : (applyInd ind r).id = r.id := by
  unfold applyInd
  cases ind.action <;> dsimp only <;> split <;> rfl

theorem get_document_by_url_ingestion_checkpoint (m : Meta) (i n : Nat) (url : String) :
    get_document_by_url (ingestion_checkpoint m i n) url =
      (get_document_by_url m url).map
        (fun r => if r.id = i then { r with n_chunks := n, ingested := true } else r) := by
  unfold get_document_by_url ingestion_checkpoint
  exact find?_map_url_pres _ (fun r => by split <;> rfl) m.rows url

theorem get_document_by_url_update_document_hash (m : Meta) (i : Nat) (h : String)
    (n : Nat) (url : String) :
    get_document_by_url (update_document_hash m i h n) url =
      (get_document_by_url m url).map
        (fun r => if r.id = i then { r with hash := h, n_chunks := n, ingested := true } else r) := by
  unfold get_document_by_url update_document_hash
  exact find?_map_url_pres _ (fun r => by split <;> rfl) m.rows url

theorem runCheckpoints_find (inds : List Indicator) : ∀ (m : Meta) (url : String),
    get_document_by_url (runCheckpoints inds m).1 url =
      (get_document_by_url m url).map (applyInds inds) := by
  induction inds with
  | nil =>
    intro m url
    cases h : get_document_by_url m url <;> simp [runCheckpoints, applyInds, h]
  | cons ind rest ih =>
    intro m url
    have hcomp : ∀ (g : DocRow → DocRow), (∀ r, g r = applyInd ind r) →
        ((get_document_by_url m url).map g).map (applyInds rest) =
          (get_document_by_url m url).map (applyInds (ind :: rest)) := by
      intro g hgr
      cases h : get_document_by_url m url <;> simp [applyInds, hgr]
    cases hact : ind.action
    · simp only [runCheckpoints, hact]
      rw [ih, get_document_by_url_ingestion_checkpoint]
      exact hcomp _ (fun r => by simp [applyInd, hact])
    · simp only [runCheckpoints, hact]
      rw [ih, get_document_by_url_update_document_hash]
      exact hcomp _ (fun r => by simp [applyInd, hact])

theorem metaWf_map (m : Meta) (g : DocRow → DocRow) (hg : ∀ r, (g r).id = r.id)
    (h : MetaWf m) : MetaWf ⟨m.rows.map g, m.nextId⟩ := by
  obtain ⟨h1, h2⟩ := h
  constructor
  · have heq : (m.rows.map g).map DocRow.id = m.rows.map DocRow.id := by
      rw [List.map_map]
      exact List.map_congr_left (fun r _ => hg r)
    rw [heq]
    exact h1
  · intro r hr
    obtain ⟨r0, hr0, rfl⟩ := List.mem_map.mp hr
    rw [hg]
    exact h2 r0 hr0

theorem runCheckpoints_wf (inds : List Indicator) : ∀ (m : Meta), MetaWf m →
    MetaWf (runCheckpoints inds m).1 := by
  induction inds with
  | nil => intro m h; exact h
  | cons ind rest ih =>
    intro m h
    cases hact : ind.action
    · simp only [runCheckpoints, hact]
      exact ih _ (metaWf_map m _ (fun r => by split <;> rfl) h)
    · simp only [runCheckpoints, hact]
      exact ih _ (metaWf_map m _ (fun r => by split <;> rfl) h)

theorem applyInd_hash_of_new (ind : Indicator) (r : DocRow) (h : ind.action = .new) :
    (applyInd ind r).hash = r.hash := by
  simp only [applyInd, h]
  split <;> rfl

theorem applyInd_hash_of_update_match (ind : Indicator) (r : DocRow)
    (h : ind.action = .update) (hid : r.id = ind.doc_id) :
    (applyInd ind r).hash = ind.new_hash := by
  simp [applyInd, h, hid]

theorem applyInd_hash_of_nomatch (ind : Indicator) (r : DocRow)
    (hid : ¬ r.id = ind.doc_id) : (applyInd ind r).hash = r.hash := by
  unfold applyInd
  cases ind.action <;> simp [hid]

theorem applyInds_hash (inds : List Indicator) : ∀ (r : DocRow) (target : String),
    (∀ ind ∈ inds, ind.doc_id = r.id → ind.action = .update → ind.new_hash = target) →
    (r.hash = target ∨ ∃ ind ∈ inds, ind.doc_id = r.id ∧ ind.action = .update) →
    (applyInds inds r).hash = target := by
  induction inds with
  | nil =>
    intro r target _ h2
    rcases h2 with h | ⟨ind, hmem, _⟩
    · simpa [applyInds] using h
    · cases hmem
  | cons ind rest ih =>
    intro r target hall hex
    have hstep : applyInds (ind :: rest) r = applyInds rest (applyInd ind r) := by
      simp [applyInds]
    rw [hstep]
    have hid := applyInd_id ind r
    apply ih
    · intro j hj hjid hjact
      rw [hid] at hjid
      exact hall j (List.mem_cons_of_mem _ hj) hjid hjact
    · rcases hex with hh | ⟨j, hj, hjid, hjact⟩
      · left
        by_cases hmatch : r.id = ind.doc_id
        · cases hact : ind.action
          · rw [applyInd_hash_of_new ind r hact]
            exact hh
          · rw [applyInd_hash_of_update_match ind r hact hmatch]
            exact hall ind (List.mem_cons_self ind rest) hmatch.symm hact
        · rw [applyInd_hash_of_nomatch ind r hmatch]
          exact hh
      · rcases List.mem_cons.mp hj with rfl | hj2
        · left
          rw [applyInd_hash_of_update_match j r hjact hjid.symm]
          exact hall j (List.mem_cons_self j rest) hjid hjact
        · right
          refine ⟨j, hj2, ?_, hjact⟩
          rw [hid]
          exact hjid

theorem metaWf_insert (m : Meta) (h : MetaWf m) (sid : Nat) (url title doc_hash : String) :
    MetaWf ⟨m.rows ++ [⟨m.nextId, sid, url, title, doc_hash, 0, false⟩], m.nextId + 1⟩ := by
  obtain ⟨h1, h2⟩ := h
  constructor
  · rw [List.map_append, List.nodup_append]
    refine ⟨h1, List.nodup_singleton _, ?_⟩
    intro a ha hb
    obtain ⟨r, hr, rfl⟩ := List.mem_map.mp ha
    simp only [List.map_cons, List.map_nil, List.mem_singleton] at hb
    exact absurd (hb ▸ h2 r hr) (Nat.lt_irrefl _)
  · intro r hr
    rcases List.mem_append.mp hr with hmem | hmem
    · exact Nat.lt_succ_of_lt (h2 r hmem)
    · simp only [List.mem_singleton] at hmem
      subst hmem
      exact Nat.lt_succ_self _

theorem get_document_by_url_append (m : Meta) (ext : List DocRow) (n : Nat)
    {url : String} {r : DocRow} (h : get_document_by_url m url = some r) :
    get_document_by_url ⟨m.rows ++ ext, n⟩ url = some r := by
  unfold get_document_by_url at h ⊢
  exact find?_append_some ext h

theorem get_document_by_url_insert_self (m : Meta) (sid : Nat)
    (url title doc_hash : String)
    (hfind : get_document_by_url m url = none) :
    get_document_by_url
        ⟨m.rows ++ [⟨m.nextId, sid, url, title, doc_hash, 0, false⟩], m.nextId + 1⟩ url =
      some ⟨m.nextId, sid, url, title, doc_hash, 0, false⟩ := by
  unfold get_document_by_url at hfind ⊢
  rw [List.find?_append, hfind]
  simp

theorem found_row_url {m : Meta} {url : String} {r : DocRow}
    (h : get_document_by_url m url = some r) : r.url = url := by
  unfold get_document_by_url at h
  have := List.find?_some h
  simpa using this

theorem found_row_mem {m : Meta} {url : String} {r : DocRow}
    (h : get_document_by_url m url = some r) : r ∈ m.rows :=
  List.mem_of_find?_eq_some h

theorem indicators_cons_some (a : PRes) (rs : List (Option PRes)) :
    indicators (some a :: rs) =
      ⟨a.doc_id, a.action, a.new_hash, a.n_chunks⟩ :: indicators rs := by
  simp [indicators, somes]

theorem indicators_cons_none (rs : List (Option PRes)) :
    indicators (none :: rs) = indicators rs := by
  simp [indicators, somes]

theorem process_document_new (env : StoreEnv) (hashFn : String → String)
    (split : String → List String) (sid : Nat) (doc : FetchedDoc)
    (meta : Meta) (vec : Vec)
    (hc : doc.content ≠ "") (hfind : get_document_by_url meta doc.url = none) :
    process_document env hashFn split sid doc meta vec =
      (Classification.new,
        some ⟨meta.nextId, split doc.content,
          (split doc.content).map (fun _ => ChunkMeta.mk meta.nextId doc.url doc.title),
          Action.new, hashFn doc.content, (split doc.content).length⟩,
        ⟨meta.rows ++ [⟨meta.nextId, sid, doc.url, doc.title, hashFn doc.content, 0, false⟩],
          meta.nextId + 1⟩, vec) := by
  simp [process_document, hc, hfind, insert_document]

theorem process_document_updated (env : StoreEnv) (hashFn : String → String)
    (split : String → List String) (sid : Nat) (doc : FetchedDoc)
    (meta : Meta) (vec : Vec) (ex : DocRow)
    (hc : doc.content ≠ "") (hfind : get_document_by_url meta doc.url = some ex)
    (hne : ex.hash ≠ hashFn doc.content) :
    process_document env hashFn split sid doc meta vec =
      (Classification.updated,
        some ⟨ex.id, split doc.content,
          (split doc.content).map (fun _ => ChunkMeta.mk ex.id doc.url doc.title),
          Action.update, hashFn doc.content, (split doc.content).length⟩,
        meta, if env.deleteOk then delete_by_document_id vec ex.id else vec) := by
  simp [process_document, hc, hfind, hne]

theorem process_document_unchanged (env : StoreEnv) (hashFn : String → String)
    (split : String → List String) (sid : Nat) (doc : FetchedDoc)
    (meta : Meta) (vec : Vec) (ex : DocRow)
    (hc : doc.content ≠ "") (hfind : get_document_by_url meta doc.url = some ex)
    (heq : ex.hash = hashFn doc.content) :
    process_document env hashFn split sid doc meta vec =
      (Classification.unchanged, none, meta, vec) := by
  simp [process_document, hc, hfind, heq]

theorem processAll_cons (env : StoreEnv) (hashFn : String → String)
    (split : String → List String) (sid : Nat) (d : FetchedDoc)
    (ds : List FetchedDoc) (meta : Meta) (vec : Vec) :
    processAll env hashFn split sid (d :: ds) meta vec =
      (((process_document env hashFn split sid d meta vec).1,
          (process_document env hashFn split sid d meta vec).2.1) ::
        (processAll env hashFn split sid ds
          (process_document env hashFn split sid d meta vec).2.2.1
          (process_document env hashFn split sid d meta vec).2.2.2).1,
        (processAll env hashFn split sid ds
          (process_document env hashFn split sid d meta vec).2.2.1
          (process_document env hashFn split sid d meta vec).2.2.2).2.1,
        (processAll env hashFn split sid ds
          (process_document env hashFn split sid d meta vec).2.2.1
          (process_document env hashFn split sid d meta vec).2.2.2).2.2) := rfl

theorem processAll_spec (env : StoreEnv) (hashFn : String → String)
    (split : String → List String) (sid : Nat) (docs : List FetchedDoc) :
    ∀ (meta : Meta) (vec : Vec), MetaWf meta →
    List.Pairwise (fun a b => a.url ≠ b.url) docs →
    (∀ d ∈ docs, d.content ≠ "") →
    MetaWf (processAll env hashFn split sid docs meta vec).2.1 ∧
    (∀ url r, get_document_by_url meta url = some r →
      get_document_by_url (processAll env hashFn split sid docs meta vec).2.1 url = some r) ∧
    (∀ d ∈ docs, ∃ row,
      get_document_by_url (processAll env hashFn split sid docs meta vec).2.1 d.url =
        some row ∧
      (row.hash = hashFn d.content ∨
        ∃ ind ∈ indicators ((processAll env hashFn split sid docs meta vec).1.map Prod.snd),
          ind.doc_id = row.id ∧ ind.action = Action.update ∧
            ind.new_hash = hashFn d.content)) ∧
    (∀ ind ∈ indicators ((processAll env hashFn split sid docs meta vec).1.map Prod.snd),
      ∃ e ∈ docs, ∃ rowe,
        get_document_by_url (processAll env hashFn split sid docs meta vec).2.1 e.url =
          some rowe ∧
        rowe.id = ind.doc_id ∧
        (ind.action = Action.update → ind.new_hash = hashFn e.content)) := by
  induction docs with
  | nil =>
    intro meta vec hwf _ _
    refine ⟨hwf, ?_, ?_, ?_⟩
    · intro url r h
      simpa [processAll] using h
    · intro d hd
      cases hd
    · intro ind hind
      simp [processAll, indicators, somes] at hind
  | cons d ds ih =>
    intro meta vec hwf hpw hct
    obtain ⟨hpd, hpw2⟩ := List.pairwise_cons.mp hpw
    have hcd : d.content ≠ "" := hct d (List.mem_cons_self d ds)
    have hcds : ∀ e ∈ ds, e.content ≠ "" := fun e he => hct e (List.mem_cons_of_mem _ he)
    cases hfind : get_document_by_url meta d.url with
    | none =>
      rw [processAll_cons, process_document_new env hashFn split sid d meta vec hcd hfind]
      dsimp only
      have hwf1 : MetaWf ⟨meta.rows ++
          [⟨meta.nextId, sid, d.url, d.title, hashFn d.content, 0, false⟩],
          meta.nextId + 1⟩ :=
        metaWf_insert meta hwf sid d.url d.title (hashFn d.content)
      obtain ⟨ihwf, ihpres, ihpost, ihind⟩ := ih _ vec hwf1 hpw2 hcds
      have hself := ihpres d.url _
        (get_document_by_url_insert_self meta sid d.url d.title (hashFn d.content) hfind)
      refine ⟨ihwf, ?_, ?_, ?_⟩
      · intro url r h
        exact ihpres url r (get_document_by_url_append meta _ _ h)
      · intro e he
        rcases List.mem_cons.mp he with rfl | he2
        · exact ⟨_, hself, Or.inl rfl⟩
        · obtain ⟨row, hrow, hdisj⟩ := ihpost e he2
          refine ⟨row, hrow, ?_⟩
          rcases hdisj with h | ⟨ind, hind, hrest⟩
          · exact Or.inl h
          · refine Or.inr ⟨ind, ?_, hrest⟩
            rw [List.map_cons, indicators_cons_some]
            exact List.mem_cons_of_mem _ hind
      · intro ind hind
        rw [List.map_cons, indicators_cons_some] at hind
        rcases List.mem_cons.mp hind with rfl | hind2
        · refine ⟨d, List.mem_cons_self d ds, _, hself, rfl, ?_⟩
          intro habs
          exact Action.noConfusion habs
        · obtain ⟨e, he, rowe, hrowe, hid, himp⟩ := ihind ind hind2
          exact ⟨e, List.mem_cons_of_mem _ he, rowe, hrowe, hid, himp⟩
    | some ex =>
      by_cases hhash : ex.hash = hashFn d.content
      · rw [processAll_cons,
          process_document_unchanged env hashFn split sid d meta vec ex hcd hfind hhash]
        dsimp only
        obtain ⟨ihwf, ihpres, ihpost, ihind⟩ := ih meta vec hwf hpw2 hcds
        refine ⟨ihwf, ihpres, ?_, ?_⟩
        · intro e he
          rcases List.mem_cons.mp he with rfl | he2
          · exact ⟨ex, ihpres e.url ex hfind, Or.inl hhash⟩
          · obtain ⟨row, hrow, hdisj⟩ := ihpost e he2
            refine ⟨row, hrow, ?_⟩
            rcases hdisj with h | ⟨ind, hind, hrest⟩
            · exact Or.inl h
            · refine Or.inr ⟨ind, ?_, hrest⟩
              rw [List.map_cons, indicators_cons_none]
              exact hind
        · intro ind hind
          rw [List.map_cons, indicators_cons_none] at hind
          obtain ⟨e, he, rowe, hrowe, hid, himp⟩ := ihind ind hind
          exact ⟨e, List.mem_cons_of_mem _ he, rowe, hrowe, hid, himp⟩
      · rw [processAll_cons,
          process_document_updated env hashFn split sid d meta vec ex hcd hfind hhash]
        dsimp only
        obtain ⟨ihwf, ihpres, ihpost, ihind⟩ :=
          ih meta (if env.deleteOk then delete_by_document_id vec ex.id else vec)
            hwf hpw2 hcds
        have hself := ihpres d.url ex hfind
        refine ⟨ihwf, ihpres, ?_, ?_⟩
        · intro e he
          rcases List.mem_cons.mp he with rfl | he2
          · refine ⟨ex, hself,
              Or.inr ⟨⟨ex.id, Action.update, hashFn e.content, (split e.content).length⟩,
                ?_, rfl, rfl, rfl⟩⟩
            rw [List.map_cons, indicators_cons_some]
            exact List.mem_cons_self _ _
          · obtain ⟨row, hrow, hdisj⟩ := ihpost e he2
            refine ⟨row, hrow, ?_⟩
            rcases hdisj with h | ⟨ind, hind, hrest⟩
            · exact Or.inl h
            · refine Or.inr ⟨ind, ?_, hrest⟩
              rw [List.map_cons, indicators_cons_some]
              exact List.mem_cons_of_mem _ hind
        · intro ind hind
          rw [List.map_cons, indicators_cons_some] at hind
          rcases List.mem_cons.mp hind with rfl | hind2
          · exact ⟨d, List.mem_cons_self d ds, ex, hself, rfl, fun _ => rfl⟩
          · obtain ⟨e, he, rowe, hrowe, hid, himp⟩ := ihind ind hind2
            exact ⟨e, List.mem_cons_of_mem _ he, rowe, hrowe, hid, himp⟩

theorem aggregate_meta_eq (env : StoreEnv) (res : List (Option PRes)) (m : Meta)
    (v : Vec) (hup : env.upsertOk = true) :
    (aggregate_and_ingest env res m v).2.1 = (runCheckpoints (indicators res) m).1 := by
  unfold aggregate_and_ingest
  by_cases h : all_chunks res = [] <;> simp [h, hup]

theorem run_establishes_hashes (env : StoreEnv) (hashFn : String → String)
    (split : String → List String) (sid : Nat) (docs : List FetchedDoc)
    (meta : Meta) (vec : Vec)
    (hwf : MetaWf meta) (hpw : List.Pairwise (fun a b => a.url ≠ b.url) docs)
    (hct : ∀ d ∈ docs, d.content ≠ "") (hup : env.upsertOk = true) :
    ∀ d ∈ docs, ∃ row,
      get_document_by_url (run env hashFn split sid docs meta vec).meta d.url = some row ∧
      row.hash = hashFn d.content := by
  intro d hd
  obtain ⟨hWfP, hpres, hpost, hindprov⟩ :=
    processAll_spec env hashFn split sid docs meta vec hwf hpw hct
  have hmeta : (run env hashFn split sid docs meta vec).meta =
      (runCheckpoints
        (indicators ((processAll env hashFn split sid docs meta vec).1.map Prod.snd))
        (processAll env hashFn split sid docs meta vec).2.1).1 := by
    show (aggregate_and_ingest env
        ((processAll env hashFn split sid docs meta vec).1.map Prod.snd)
        (processAll env hashFn split sid docs meta vec).2.1
        (processAll env hashFn split sid docs meta vec).2.2).2.1 = _
    exact aggregate_meta_eq env _ _ _ hup
  rw [hmeta, runCheckpoints_find]
  obtain ⟨row, hfindrow, hdisj⟩ := hpost d hd
  rw [hfindrow]
  refine ⟨applyInds _ row, rfl, ?_⟩
  apply applyInds_hash
  · intro ind hind hid hact
    obtain ⟨e, he, rowe, hfinde, hide, himp⟩ := hindprov ind hind
    have hre : rowe = row := by
      have h1 : rowe ∈ (processAll env hashFn split sid docs meta vec).2.1.rows :=
        found_row_mem hfinde
      have h2 : row ∈ (processAll env hashFn split sid docs meta vec).2.1.rows :=
        found_row_mem hfindrow
      have hidq : rowe.id = row.id := by rw [hide, hid]
      exact List.inj_on_of_nodup_map hWfP.1 h1 h2 hidq
    have hurl : e.url = d.url := by
      have h1 := found_row_url hfinde
      have h2 := found_row_url hfindrow
      rw [← h1, hre, h2]
    have hed : e = d := by
      by_contra hne
      exact List.Pairwise.forall (fun a b hab => Ne.symm hab) hpw he hd hne hurl
    rw [himp hact, hed]
  · rcases hdisj with h | ⟨ind, hind, hid, hact, _⟩
    · exact Or.inl h
    · exact Or.inr ⟨ind, hind, hid, hact⟩

theorem processAll_all_unchanged (env : StoreEnv) (hashFn : String → String)
    (split : String → List String) (sid : Nat) (docs : List FetchedDoc) :
    ∀ (meta : Meta) (vec : Vec),
    (∀ d ∈ docs, d.content ≠ "" ∧ ∃ row,
      get_document_by_url meta d.url = some row ∧ row.hash = hashFn d.content) →
    processAll env hashFn split sid docs meta vec =
      (docs.map (fun _ => (Classification.unchanged, none)), meta, vec) := by
  induction docs with
  | nil =>
    intro meta vec _
    rfl
  | cons d ds ih =>
    intro meta vec h
    obtain ⟨hc, row, hfind, hhash⟩ := h d (List.mem_cons_self d ds)
    have hstep := process_document_unchanged env hashFn split sid d meta vec row
      hc hfind hhash
    rw [processAll_cons, hstep]
    dsimp only
    rw [ih meta vec (fun e he => h e (List.mem_cons_of_mem _ he))]
    simp

theorem run_all_unchanged (env : StoreEnv) (hashFn : String → String)
    (split : String → List String) (sid : Nat) (docs : List FetchedDoc)
    (meta : Meta) (vec : Vec)
    (h : ∀ d ∈ docs, d.content ≠ "" ∧ ∃ row,
      get_document_by_url meta d.url = some row ∧ row.hash = hashFn d.content) :
    run env hashFn split sid docs meta vec =
      ⟨docs.map (fun _ => Classification.unchanged), true, meta, vec, []⟩ := by
  unfold run
  rw [processAll_all_unchanged env hashFn split sid docs meta vec h]
  dsimp only
  have hres : (docs.map
      (fun _ => ((Classification.unchanged : Classification), (none : Option PRes)))).map
        Prod.snd = List.replicate docs.length (none : Option PRes) := by
    simp
  rw [hres]
  have hsomes : somes (List.replicate docs.length (none : Option PRes)) = [] := by
    simp only [somes]
    apply List.filterMap_eq_nil_iff.mpr
    intro x hx
    rw [List.eq_of_mem_replicate hx]
    rfl
  have hchunks : all_chunks (List.replicate docs.length (none : Option PRes)) = [] := by
    unfold all_chunks
    rw [hsomes]
    rfl
  have hinds : indicators (List.replicate docs.length (none : Option PRes)) = [] := by
    unfold indicators
    rw [hsomes]
    rfl
  simp [aggregate_and_ingest, hchunks, hinds, runCheckpoints]

theorem run_meta_wf (env : StoreEnv) (hashFn : String → String)
    (split : String → List String) (sid : Nat) (docs : List FetchedDoc)
    (meta : Meta) (vec : Vec)
    (hwf : MetaWf meta) (hpw : List.Pairwise (fun a b => a.url ≠ b.url) docs)
    (hct : ∀ d ∈ docs, d.content ≠ "") (hup : env.upsertOk = true) :
    MetaWf (run env hashFn split sid docs meta vec).meta := by
  obtain ⟨hWfP, _, _, _⟩ := processAll_spec env hashFn split sid docs meta vec hwf hpw hct
  have hmeta : (run env hashFn split sid docs meta vec).meta =
      (runCheckpoints
        (indicators ((processAll env hashFn split sid docs meta vec).1.map Prod.snd))
        (processAll env hashFn split sid docs meta vec).2.1).1 := by
    show (aggregate_and_ingest env
        ((processAll env hashFn split sid docs meta vec).1.map Prod.snd)
        (processAll env hashFn split sid docs meta vec).2.1
        (processAll env hashFn split sid docs meta vec).2.2).2.1 = _
    exact aggregate_meta_eq env _ _ _ hup
  rw [hmeta]
  exact runCheckpoints_wf _ _ hWfP

/-- C5: re-ingesting a byte-identical corpus after a successful run
classifies every document unchanged and performs no store writes at
all: the second run's event list is empty (in particular the bulk
upsert is skipped because the batch yields zero chunks) and both stores
are returned untouched.  Hypotheses: the initial metadata store is
well-formed, the corpus has pairwise-distinct urls (one Document per
url) and no empty contents, and the first run's upsert succeeds. -/
theorem reingestion_idempotent (env1 env2 : StoreEnv) (hashFn : String → String)
    (split : String → List String) (sid : Nat) (docs : List FetchedDoc)
    (meta : Meta) (vec : Vec)
    (hwf : MetaWf meta)
    (hpw : List.Pairwise (fun a b => a.url ≠ b.url) docs)
    (hct : ∀ d ∈ docs, d.content ≠ "")
    (hup : env1.upsertOk = true) :
    run env2 hashFn split sid docs (run env1 hashFn split sid docs meta vec).meta
        (run env1 hashFn split sid docs meta vec).vec =
      ⟨docs.map (fun _ => Classification.unchanged), true,
        (run env1 hashFn split sid docs meta vec).meta,
        (run env1 hashFn split sid docs meta vec).vec, []⟩ := by
  apply run_all_unchanged
  intro d hd
  exact ⟨hct d hd,
    run_establishes_hashes env1 hashFn split sid docs meta vec hwf hpw hct hup d hd⟩

/-- Witness for C5 at a concrete one-document corpus. -/
theorem reingestion_idempotent_witness :
    run ⟨true, true⟩ id (fun s => [s]) 0 [⟨"u", "c", "t"⟩]
        (run ⟨true, true⟩ id (fun s => [s]) 0 [⟨"u", "c", "t"⟩] ⟨[], 0⟩ []).meta
        (run ⟨true, true⟩ id (fun s => [s]) 0 [⟨"u", "c", "t"⟩] ⟨[], 0⟩ []).vec =
      ⟨[Classification.unchanged], true,
        (run ⟨true, true⟩ id (fun s => [s]) 0 [⟨"u", "c", "t"⟩] ⟨[], 0⟩ []).meta,
        (run ⟨true, true⟩ id (fun s => [s]) 0 [⟨"u", "c", "t"⟩] ⟨[], 0⟩ []).vec, []⟩ := by
  exact reingestion_idempotent ⟨true, true⟩ ⟨true, true⟩ id (fun s => [s]) 0
    [⟨"u", "c", "t"⟩] ⟨[], 0⟩ [] (by constructor <;> simp) (by simp) (by simp) rfl

end RagSpec
